import Mathlib

/-!
Verification of the binary min-heap (src/event_simulation/data_structures/heap.c)
and the event queue built on top of it (src/event_simulation/event_queue.c).

The C heap stores its elements in a dynamic array `elems` with a `size` field;
we model the live prefix `elems[0 .. size-1]` as a `List`.  The `capacity`
field and the `realloc` growth path only change the backing storage, never the
stored sequence, so they do not appear in the model.  The comparator is a
parameter of each operation (in C it is bound once at creation time and read
from the struct on every call).
-/

namespace CustomSwitchSimulation

/-- Three-way comparison results, from `enum comparator_val` in heap.h. -/
inductive comparison_t : Type where
  | LESS_THAN
  | GREATER_THAN
  | EQUAL_TO
deriving DecidableEq

open comparison_t

/-- Total lookup used to state array-index properties: `elems[i]`, with a junk
default value out of range (the C code only reads in-range indices). -/
def nthD {α : Type} [Inhabited α] (l : List α) (i : Nat) : α :=
  l.getD i default

/-- Swap of `elems[i]` and `elems[j]` (the three-assignment `temp` dance in
heap.c); out-of-range indices leave the array unchanged (the C code only swaps
in-range indices). -/
def listSwap {α : Type} (l : List α) (i j : Nat) : List α :=
  match l[i]?, l[j]? with
  | some a, some b => (l.set i b).set j a
  | _, _ => l

/-- From heap.c `binary_heap_get_parent_index`: `(index - 1) / 2`.  The C
version on `int` returns `0` at `index = 0` (truncating division of `-1` by
`2`), and every call site guards `index ≠ 0` before using the parent, so
natural-number subtraction agrees with the C code at every use. -/
def binary_heap_get_parent_index (index : Nat) : Nat :=
  (index - 1) / 2

/-- From heap.c `binary_heap_get_left_child_index`: `2 * index + 1`. -/
def binary_heap_get_left_child_index (index : Nat) : Nat :=
  2 * index + 1

/-- From heap.c `binary_heap_get_right_child_index`: `2 * index + 2`. -/
def binary_heap_get_right_child_index (index : Nat) : Nat :=
  2 * index + 2

/-- The loop of heap.c `binary_heap_bubble_last_element`, parametrised by the
current `elem_index`: while the element is not at the root and compares
`LESS_THAN` its parent, swap it with its parent and continue from the parent
position.  The first argument is loop fuel: each iteration strictly decreases
`elem_index`, so any fuel of at least `elem_index` runs the loop to completion
exactly as the C `while` does. -/
def bubble_up {α : Type} (c : α → α → comparison_t) :
    Nat → List α → Nat → List α
  | 0, l, _ => l
  | _ + 1, l, 0 => l
  | fuel + 1, l, i + 1 =>
    let parent_index := binary_heap_get_parent_index (i + 1)
    match l[i + 1]?, l[parent_index]? with
    | some e, some p =>
      if c e p = LESS_THAN then
        bubble_up c fuel (listSwap l (i + 1) parent_index) parent_index
      else l
    | _, _ => l

/-- From heap.c `binary_heap_bubble_last_element`: bubbling starts at
`elem_index = size - 1`, the last element of the array. -/
def binary_heap_bubble_last_element {α : Type} (c : α → α → comparison_t)
    (l : List α) : List α :=
  bubble_up c (l.length - 1) l (l.length - 1)

/-- From heap.c `binary_heap_insert`: write the new element at index `size`,
increment `size` (list append), then bubble the last element up. -/
def binary_heap_insert {α : Type} (c : α → α → comparison_t) (heap : List α)
    (elem : α) : List α :=
  binary_heap_bubble_last_element c (heap ++ [elem])

/-- From heap.c `binary_heap_size`. -/
def binary_heap_size {α : Type} (heap : List α) : Nat :=
  heap.length

/-- From heap.c `binary_heap_min`: `NULL` (here `none`) when `size` is `0`,
otherwise `elems[0]`. -/
def binary_heap_min {α : Type} (heap : List α) : Option α :=
  if heap.length = 0 then none else heap[0]?

/-- The statements `elems[0] = elems[size - 1]; elems[size - 1] = 0;
size = size - 1;` of heap.c `binary_heap_pop_min`: overwrite the root with the
last element and shrink the array by one slot. -/
def binary_heap_replace_root_with_last {α : Type} (heap : List α) : List α :=
  match heap.getLast? with
  | none => heap
  | some last => heap.dropLast.set 0 last

/-- One iteration of the sift-down loop of heap.c `binary_heap_pop_min`: the
decision which child (if any) index `index` is swapped with.  Mirrors the
`swap_left` / `swap_right` flag computation verbatim: with both children
present, a swap happens only when the node compares `GREATER_THAN` at least
one child, and between the two children the left one is preferred unless the
children compare `GREATER_THAN` (left against right); with a single child a
swap happens exactly on `GREATER_THAN`. -/
def sift_step {α : Type} (c : α → α → comparison_t) (l : List α)
    (index : Nat) : Option Nat :=
  let left_index := binary_heap_get_left_child_index index
  let right_index := binary_heap_get_right_child_index index
  let left_present := left_index < l.length
  let right_present := right_index < l.length
  if left_present ∧ right_present then
    match l[index]?, l[left_index]?, l[right_index]? with
    | some e, some le, some re =>
      if c e le = GREATER_THAN ∧ c e re = GREATER_THAN then
        if c le re = LESS_THAN ∨ c le re = EQUAL_TO then
          some left_index
        else
          some right_index
      else if c e le = GREATER_THAN then
        some left_index
      else if c e re = GREATER_THAN then
        some right_index
      else
        none
    | _, _, _ => none
  else if left_present then
    match l[index]?, l[left_index]? with
    | some e, some le =>
      if c e le = GREATER_THAN then some left_index else none
    | _, _ => none
  else if right_present then
    match l[index]?, l[right_index]? with
    | some e, some re =>
      if c e re = GREATER_THAN then some right_index else none
    | _, _ => none
  else
    none

/-- Key bound used for the termination of the sift-down loop: a swap target is
always a strictly larger in-range index. -/
theorem sift_step_some {α : Type} {c : α → α → comparison_t} {l : List α}
    {index j : Nat} (h : sift_step c l index = some j) :
    index < j ∧ j < l.length := by
  unfold sift_step at h
  simp only [binary_heap_get_left_child_index,
    binary_heap_get_right_child_index] at h
  split at h
  · rename_i hpres
    split at h
    · split at h
      · split at h <;> (simp only [Option.some.injEq] at h; omega)
      · split at h
        · simp only [Option.some.injEq] at h; omega
        · split at h
          · simp only [Option.some.injEq] at h; omega
          · exact absurd h (by simp)
    · exact absurd h (by simp)
  · split at h
    · rename_i hl
      split at h
      · split at h
        · simp only [Option.some.injEq] at h; omega
        · exact absurd h (by simp)
      · exact absurd h (by simp)
    · split at h
      · rename_i hr
        split at h
        · split at h
          · simp only [Option.some.injEq] at h; omega
          · exact absurd h (by simp)
        · exact absurd h (by simp)
      · exact absurd h (by simp)

/-- The sift-down loop of heap.c `binary_heap_pop_min`: while some child index
is in range and the node still has to move down, swap with the child chosen by
`sift_step` and continue from the position of that child.  The first argument is
loop fuel: each iteration moves `index` to a strictly larger in-range index
(`sift_step_some`), so any fuel of at least `size - index` runs the loop to
completion exactly as the C `while` does. -/
def sift_down {α : Type} (c : α → α → comparison_t) :
    Nat → List α → Nat → List α
  | 0, l, _ => l
  | fuel + 1, l, index =>
    if binary_heap_get_left_child_index index < l.length ∨
        binary_heap_get_right_child_index index < l.length then
      match sift_step c l index with
      | some j => sift_down c fuel (listSwap l index j) j
      | none => l
    else l

/-- From heap.c `binary_heap_pop_min`: on an empty heap return `NULL` and do
not touch the array; otherwise return the root, overwrite it with the last
element, shrink the array, and sift the new root down.  The pair is (returned
value, heap contents after the call). -/
def binary_heap_pop_min {α : Type} (c : α → α → comparison_t)
    (heap : List α) : Option α × List α :=
  match binary_heap_min heap with
  | none => (none, heap)
  | some min_val =>
      (some min_val,
        sift_down c (binary_heap_replace_root_with_last heap).length
          (binary_heap_replace_root_with_last heap) 0)

/-! Helper lemmas about `nthD`, `List.set` and `listSwap`. -/

theorem nthD_eq_getElem? {α : Type} [Inhabited α] (l : List α) (i : Nat) :
    nthD l i = (l[i]?).getD default := by
  simp [nthD]

theorem getElem?_eq_some_nthD {α : Type} [Inhabited α] {l : List α} {i : Nat}
    (h : i < l.length) : l[i]? = some (nthD l i) := by
  rw [nthD_eq_getElem?, List.getElem?_eq_getElem h]
  rfl

theorem nthD_set_self {α : Type} [Inhabited α] {l : List α} {i : Nat}
    (a : α) (h : i < l.length) : nthD (l.set i a) i = a := by
  rw [nthD_eq_getElem?, List.getElem?_set_self h]
  rfl

theorem nthD_set_ne {α : Type} [Inhabited α] {l : List α} {i j : Nat}
    (a : α) (h : i ≠ j) : nthD (l.set i a) j = nthD l j := by
  rw [nthD_eq_getElem?, List.getElem?_set_ne h, nthD_eq_getElem?]

theorem nthD_append_left {α : Type} [Inhabited α] {l : List α} {i : Nat}
    (x : α) (h : i < l.length) : nthD (l ++ [x]) i = nthD l i := by
  rw [nthD_eq_getElem?, nthD_eq_getElem?, List.getElem?_append, if_pos h]

theorem nthD_append_last {α : Type} [Inhabited α] (l : List α) (x : α) :
    nthD (l ++ [x]) l.length = x := by
  rw [nthD_eq_getElem?, List.getElem?_append_right (Nat.le_refl _)]
  simp

@[simp] theorem listSwap_length {α : Type} (l : List α) (i j : Nat) :
    (listSwap l i j).length = l.length := by
  unfold listSwap
  split
  · simp
  · rfl

theorem listSwap_def {α : Type} {l : List α} {i j : Nat}
    (hi : i < l.length) (hj : j < l.length) {a b : α}
    (ha : l[i]? = some a) (hb : l[j]? = some b) :
    listSwap l i j = (l.set i b).set j a := by
  unfold listSwap
  rw [ha, hb]

theorem nthD_listSwap {α : Type} [Inhabited α] {l : List α} {i j : Nat}
    (hi : i < l.length) (hj : j < l.length) (k : Nat) :
    nthD (listSwap l i j) k =
      if k = j then nthD l i else if k = i then nthD l j else nthD l k := by
  rw [listSwap_def hi hj (getElem?_eq_some_nthD hi) (getElem?_eq_some_nthD hj)]
  by_cases hkj : k = j
  · subst hkj
    rw [if_pos rfl, nthD_set_self _ (by simpa using hj)]
  · rw [if_neg hkj, nthD_set_ne _ (fun h => hkj h.symm)]
    by_cases hki : k = i
    · subst hki
      rw [if_pos rfl, nthD_set_self _ hi]
    · rw [if_neg hki, nthD_set_ne _ (fun h => hki h.symm)]

theorem set_of_getElem?_self {α : Type} :
    ∀ (l : List α) (i : Nat) (a : α), l[i]? = some a → l.set i a = l := by
  intro l
  induction l with
  | nil => intro i a h; simp at h
  | cons x t ih =>
    intro i a h
    cases i with
    | zero =>
      simp only [List.getElem?_cons_zero, Option.some.injEq] at h
      simp [h]
    | succ n =>
      simp only [List.getElem?_cons_succ] at h
      simp [ih n a h]

theorem cons_set_perm {α : Type} :
    ∀ (t : List α) (k : Nat) (b x : α), t[k]? = some b →
      (b :: t.set k x).Perm (x :: t) := by
  intro t
  induction t with
  | nil => intro k b x h; simp at h
  | cons y s ih =>
    intro k b x h
    cases k with
    | zero =>
      simp only [List.getElem?_cons_zero, Option.some.injEq] at h
      subst h
      simp only [List.set_cons_zero]
      exact List.Perm.swap _ _ _
    | succ n =>
      simp only [List.getElem?_cons_succ] at h
      have hbs : (b :: s.set n x).Perm (x :: s) := ih n b x h
      simp only [List.set_cons_succ]
      exact (List.Perm.swap _ _ _).trans ((hbs.cons y).trans (List.Perm.swap _ _ _))

theorem set_set_perm {α : Type} :
    ∀ (l : List α) (i j : Nat), i < j →
      ∀ (a b : α), l[i]? = some a → l[j]? = some b →
      ((l.set i b).set j a).Perm l := by
  intro l
  induction l with
  | nil => intro i j _ a b h; simp at h
  | cons x t ih =>
    intro i j hij a b ha hb
    cases i with
    | zero =>
      simp only [List.getElem?_cons_zero, Option.some.injEq] at ha
      subst ha
      obtain ⟨n, rfl⟩ : ∃ n, j = n + 1 := ⟨j - 1, by omega⟩
      simp only [List.getElem?_cons_succ] at hb
      simp only [List.set_cons_zero, List.set_cons_succ]
      exact cons_set_perm t n b _ hb
    | succ m =>
      obtain ⟨n, rfl⟩ : ∃ n, j = n + 1 := ⟨j - 1, by omega⟩
      simp only [List.getElem?_cons_succ] at ha hb
      simp only [List.set_cons_succ]
      exact (ih m n (by omega) a b ha hb).cons x

theorem listSwap_perm {α : Type} (l : List α) (i j : Nat) :
    (listSwap l i j).Perm l := by
  unfold listSwap
  split
  · rename_i a b ha hb
    rcases Nat.lt_trichotomy i j with hij | hij | hij
    · exact set_set_perm l i j hij a b ha hb
    · subst hij
      rw [ha] at hb
      cases hb
      rw [List.set_set, set_of_getElem?_self l i a ha]
    · rw [List.set_comm b a l (show i ≠ j by omega)]
      exact set_set_perm l j i hij b a hb ha
  · exact List.Perm.refl l

/-! Abstract properties of a "total-order-producing" comparator (spec section
3: `comparator`: total-order-producing function `(a, b) -> {LESS, GREATER,
EQUAL}`).  `cle c a b` is "`a` is not greater than `b`", the relation the heap
invariant is phrased in. -/

/-- Comparator-induced "less than or equivalent" relation. -/
def cle {α : Type} (c : α → α → comparison_t) (a b : α) : Prop :=
  c a b ≠ GREATER_THAN

/-- Comparator-induced strict "less than" relation. -/
def clt {α : Type} (c : α → α → comparison_t) (a b : α) : Prop :=
  c a b = LESS_THAN

/-- A comparator that linearly orders the equivalence classes of its
arguments: `GREATER_THAN` is the mirror image of `LESS_THAN`, and
not-greater-than is transitive.  This is what the spec demands of a supplied
comparator (a total order on values, or on times for the event queue, where
distinct events with equal times compare `EQUAL_TO`). -/
structure TotalCmp {α : Type} (c : α → α → comparison_t) : Prop where
  gt_iff_lt : ∀ a b, c a b = GREATER_THAN ↔ c b a = LESS_THAN
  le_trans : ∀ a b d, cle c a b → cle c b d → cle c a d

/-- A total comparator under which `EQUAL_TO` implies actual equality, i.e. a
decidable linear order on the element values themselves. -/
structure LinearCmp {α : Type} (c : α → α → comparison_t) extends
    TotalCmp c : Prop where
  eq_of_eq : ∀ a b, c a b = EQUAL_TO → a = b

namespace TotalCmp

theorem not_le_iff {α : Type} {c : α → α → comparison_t} (hc : TotalCmp c)
    {a b : α} : ¬ cle c a b ↔ clt c b a := by
  unfold cle clt
  rw [not_not]
  exact hc.gt_iff_lt a b

theorem le_of_not_lt {α : Type} {c : α → α → comparison_t} (hc : TotalCmp c)
    {a b : α} (h : ¬ clt c a b) : cle c b a := by
  unfold clt at h
  unfold cle
  rw [Ne, hc.gt_iff_lt]
  exact h

theorem le_of_lt {α : Type} {c : α → α → comparison_t} (_hc : TotalCmp c)
    {a b : α} (h : clt c a b) : cle c a b := by
  unfold clt at h
  unfold cle
  rw [h]
  intro hcon
  cases hcon

theorem le_refl {α : Type} {c : α → α → comparison_t} (hc : TotalCmp c)
    (a : α) : cle c a a := by
  intro h
  have h2 := (hc.gt_iff_lt a a).mp h
  rw [h] at h2
  cases h2

theorem le_total {α : Type} {c : α → α → comparison_t} (hc : TotalCmp c)
    (a b : α) : cle c a b ∨ cle c b a := by
  by_cases h : cle c a b
  · exact Or.inl h
  · exact Or.inr (hc.le_of_lt ((hc.not_le_iff).mp h))

theorem lt_of_lt_of_le {α : Type} {c : α → α → comparison_t} (hc : TotalCmp c)
    {a b d : α} (hab : clt c a b) (hbd : cle c b d) : clt c a d := by
  by_contra h
  have hda : cle c d a := hc.le_of_not_lt h
  have hba : cle c b a := hc.le_trans b d a hbd hda
  exact absurd hba (hc.not_le_iff.mpr hab)

theorem lt_of_le_of_lt {α : Type} {c : α → α → comparison_t} (hc : TotalCmp c)
    {a b d : α} (hab : cle c a b) (hbd : clt c b d) : clt c a d := by
  by_contra h
  have hda : cle c d a := hc.le_of_not_lt h
  have hdb : cle c d b := hc.le_trans d a b hda hab
  exact absurd hdb (hc.not_le_iff.mpr hbd)

end TotalCmp

namespace LinearCmp

theorem le_antisymm {α : Type} {c : α → α → comparison_t} (hc : LinearCmp c)
    {a b : α} (hab : cle c a b) (hba : cle c b a) : a = b := by
  apply hc.eq_of_eq
  unfold cle at hab hba
  rw [Ne, hc.gt_iff_lt] at hba
  cases h : c a b
  · exact absurd h hba
  · exact absurd h hab
  · rfl

end LinearCmp

/-! Concrete comparators from event_queue.c, and the event data model. -/

/-- From event_queue.c `uint_time_comparator` (the boxed `unsigned int` time
values are modeled as `Nat`; the function only compares them, so no overflow
is involved). -/
def uint_time_comparator (lhs rhs : Nat) : comparison_t :=
  if lhs < rhs then LESS_THAN
  else if lhs > rhs then GREATER_THAN
  else EQUAL_TO

theorem uint_time_comparator_eq_lt {a b : Nat} :
    uint_time_comparator a b = LESS_THAN ↔ a < b := by
  unfold uint_time_comparator
  split_ifs <;> simp <;> omega

theorem uint_time_comparator_eq_gt {a b : Nat} :
    uint_time_comparator a b = GREATER_THAN ↔ b < a := by
  unfold uint_time_comparator
  split_ifs <;> simp <;> omega

theorem uint_time_comparator_eq_eq {a b : Nat} :
    uint_time_comparator a b = EQUAL_TO ↔ a = b := by
  unfold uint_time_comparator
  split_ifs <;> simp <;> omega

theorem uint_time_comparator_ne_gt {a b : Nat} :
    uint_time_comparator a b ≠ GREATER_THAN ↔ a ≤ b := by
  rw [Ne, uint_time_comparator_eq_gt]
  omega

theorem uint_time_comparator_linear : LinearCmp uint_time_comparator := by
  refine ⟨⟨?_, ?_⟩, ?_⟩
  · intro a b
    rw [uint_time_comparator_eq_gt, uint_time_comparator_eq_lt]
  · intro a b d hab hbd
    unfold cle at hab hbd ⊢
    rw [uint_time_comparator_ne_gt] at hab hbd ⊢
    omega
  · intro a b h
    exact uint_time_comparator_eq_eq.mp h

/-- From `struct event` in event_queue.c: a payload pointer paired with a time
pointer.  `α` is the payload type, `τ` the time representation. -/
structure event (α : Type) (τ : Type) where
  data : α
  time : τ
deriving DecidableEq

instance {α τ : Type} [Inhabited α] [Inhabited τ] : Inhabited (event α τ) :=
  ⟨⟨default, default⟩⟩

/-- From event_queue.c `event_comparator`: comparison of two events defers to
the bound `time_comparator` of the queue on their `time` fields. -/
def event_comparator {α τ : Type} (time_comparator : τ → τ → comparison_t)
    (lhs rhs : event α τ) : comparison_t :=
  time_comparator lhs.time rhs.time

theorem event_comparator_total {α τ : Type}
    {time_comparator : τ → τ → comparison_t} (hc : TotalCmp time_comparator) :
    TotalCmp (event_comparator (α := α) time_comparator) := by
  refine ⟨?_, ?_⟩
  · intro a b
    exact hc.gt_iff_lt a.time b.time
  · intro a b d hab hbd
    exact hc.le_trans a.time b.time d.time hab hbd

/-! Structural facts: the heap operations only permute the stored elements. -/

theorem bubble_up_length {α : Type} (c : α → α → comparison_t) :
    ∀ (fuel : Nat) (l : List α) (i : Nat),
      (bubble_up c fuel l i).length = l.length := by
  intro fuel
  induction fuel with
  | zero => intro l i; rfl
  | succ f ih =>
    intro l i
    cases i with
    | zero => rfl
    | succ n =>
      simp only [bubble_up]
      split
      · split
        · rw [ih, listSwap_length]
        · rfl
      · rfl

theorem bubble_up_perm {α : Type} (c : α → α → comparison_t) :
    ∀ (fuel : Nat) (l : List α) (i : Nat),
      (bubble_up c fuel l i).Perm l := by
  intro fuel
  induction fuel with
  | zero => intro l i; exact List.Perm.refl l
  | succ f ih =>
    intro l i
    cases i with
    | zero => exact List.Perm.refl l
    | succ n =>
      simp only [bubble_up]
      split
      · split
        · exact (ih _ _).trans (listSwap_perm l _ _)
        · exact List.Perm.refl l
      · exact List.Perm.refl l

theorem binary_heap_insert_length {α : Type} (c : α → α → comparison_t)
    (heap : List α) (elem : α) :
    (binary_heap_insert c heap elem).length = heap.length + 1 := by
  unfold binary_heap_insert binary_heap_bubble_last_element
  rw [bubble_up_length]
  simp

theorem binary_heap_insert_perm {α : Type} (c : α → α → comparison_t)
    (heap : List α) (elem : α) :
    (binary_heap_insert c heap elem).Perm (heap ++ [elem]) := by
  unfold binary_heap_insert binary_heap_bubble_last_element
  exact bubble_up_perm c _ _ _

theorem sift_down_length {α : Type} (c : α → α → comparison_t) :
    ∀ (fuel : Nat) (l : List α) (i : Nat),
      (sift_down c fuel l i).length = l.length := by
  intro fuel
  induction fuel with
  | zero => intro l i; rfl
  | succ f ih =>
    intro l i
    simp only [sift_down]
    split
    · split
      · rw [ih, listSwap_length]
      · rfl
    · rfl

theorem sift_down_perm {α : Type} (c : α → α → comparison_t) :
    ∀ (fuel : Nat) (l : List α) (i : Nat),
      (sift_down c fuel l i).Perm l := by
  intro fuel
  induction fuel with
  | zero => intro l i; exact List.Perm.refl l
  | succ f ih =>
    intro l i
    simp only [sift_down]
    split
    · split
      · exact (ih _ _).trans (listSwap_perm l _ _)
      · exact List.Perm.refl l
    · exact List.Perm.refl l

theorem binary_heap_replace_root_with_last_length {α : Type} (l : List α) :
    (binary_heap_replace_root_with_last l).length = l.length - 1 := by
  unfold binary_heap_replace_root_with_last
  cases h : l.getLast? with
  | none =>
    rw [List.getLast?_eq_none_iff] at h
    subst h
    rfl
  | some last => simp

theorem binary_heap_replace_root_with_last_perm {α : Type} (x : α)
    (t : List α) :
    (binary_heap_replace_root_with_last (x :: t)).Perm t := by
  unfold binary_heap_replace_root_with_last
  cases t with
  | nil => simp
  | cons y s =>
    have hys : y :: s ≠ [] := by simp
    rw [List.getLast?_cons_cons]
    rw [show (y :: s).getLast? = some ((y :: s).getLast hys) by
      rw [List.getLast?_eq_getLast _ hys]]
    have hdrop : (x :: y :: s).dropLast = x :: (y :: s).dropLast := by
      simp
    show ((x :: y :: s).dropLast.set 0 ((y :: s).getLast hys)).Perm (y :: s)
    rw [hdrop, List.set_cons_zero]
    have hp : ((y :: s).getLast hys :: (y :: s).dropLast).Perm
        ((y :: s).dropLast ++ [(y :: s).getLast hys]) :=
      (List.perm_append_singleton _ _).symm
    rw [List.dropLast_concat_getLast hys] at hp
    exact hp

/-- Pop on the empty heap: `NULL` result, heap untouched (heap.c lines
167-179). -/
theorem binary_heap_pop_min_nil {α : Type} (c : α → α → comparison_t) :
    binary_heap_pop_min c ([] : List α) = (none, []) := rfl

theorem binary_heap_pop_min_cons {α : Type} (c : α → α → comparison_t)
    (x : α) (t : List α) :
    (binary_heap_pop_min c (x :: t)).1 = some x := by
  unfold binary_heap_pop_min binary_heap_min
  simp

theorem binary_heap_pop_min_cons_perm {α : Type} (c : α → α → comparison_t)
    (x : α) (t : List α) :
    (binary_heap_pop_min c (x :: t)).2.Perm t := by
  unfold binary_heap_pop_min binary_heap_min
  simp only [List.length_cons]
  have : ¬ (t.length + 1 = 0) := by omega
  rw [if_neg this]
  simp only [List.getElem?_cons_zero]
  exact (sift_down_perm c _ _ _).trans
    (binary_heap_replace_root_with_last_perm x t)

theorem binary_heap_pop_min_cons_length {α : Type} (c : α → α → comparison_t)
    (x : α) (t : List α) :
    (binary_heap_pop_min c (x :: t)).2.length = t.length :=
  (binary_heap_pop_min_cons_perm c x t).length_eq

/-! Operation sequences and draining pops, used to state the spec sentences
"after any sequence of inserts/pops" and sortedness properties. -/

/-- A call to one of the two mutating heap operations. -/
inductive heap_op (α : Type) where
  | insert (elem : α)
  | pop_min

/-- Run a sequence of heap operations left to right (pop results are
discarded; a failed pop leaves the heap unchanged, as in the C code). -/
def binary_heap_run {α : Type} (c : α → α → comparison_t)
    (heap : List α) : List (heap_op α) → List α
  | [] => heap
  | heap_op.insert e :: ops =>
      binary_heap_run c (binary_heap_insert c heap e) ops
  | heap_op.pop_min :: ops =>
      binary_heap_run c (binary_heap_pop_min c heap).2 ops

/-- Build a heap by inserting the elements of `xs` in order into an empty
heap (`create_empty_heap` produces the empty element sequence). -/
def binary_heap_build {α : Type} (c : α → α → comparison_t)
    (xs : List α) : List α :=
  List.foldl (binary_heap_insert c) [] xs

/-- Call `binary_heap_pop_min` repeatedly (at most `fuel` times), collecting
the returned elements until the heap reports empty. -/
def pop_all_fuel {α : Type} (c : α → α → comparison_t) :
    Nat → List α → List α
  | 0, _ => []
  | fuel + 1, heap =>
    match binary_heap_pop_min c heap with
    | (some m, rest) => m :: pop_all_fuel c fuel rest
    | (none, _) => []

/-- Drain the heap completely: `size` many pops empty it. -/
def binary_heap_pop_all {α : Type} (c : α → α → comparison_t)
    (heap : List α) : List α :=
  pop_all_fuel c heap.length heap

/-- Apply `binary_heap_pop_min` `m` times, keeping only the heap. -/
def pop_iter {α : Type} (c : α → α → comparison_t) :
    Nat → List α → List α
  | 0, heap => heap
  | m + 1, heap => pop_iter c m (binary_heap_pop_min c heap).2

theorem pop_all_fuel_perm {α : Type} (c : α → α → comparison_t) :
    ∀ (fuel : Nat) (l : List α), fuel = l.length →
      (pop_all_fuel c fuel l).Perm l := by
  intro fuel
  induction fuel with
  | zero =>
    intro l h
    have : l = [] := List.length_eq_zero.mp h.symm
    subst this
    exact List.Perm.refl []
  | succ f ih =>
    intro l h
    cases l with
    | nil => simp at h
    | cons x t =>
      simp only [pop_all_fuel]
      have h1 := binary_heap_pop_min_cons c x t
      have h2 := binary_heap_pop_min_cons_perm c x t
      have h3 := binary_heap_pop_min_cons_length c x t
      cases hp : binary_heap_pop_min c (x :: t) with
      | mk r rest =>
        rw [hp] at h1 h2 h3
        simp only at h1 h2 h3
        subst h1
        have hf : f = rest.length := by
          simp only [List.length_cons] at h
          omega
        exact ((ih rest hf).cons x).trans
          ((h2.cons x).trans (List.Perm.refl _))

/-- Draining a heap yields a permutation of its contents. -/
theorem binary_heap_pop_all_perm {α : Type} (c : α → α → comparison_t)
    (l : List α) : (binary_heap_pop_all c l).Perm l :=
  pop_all_fuel_perm c l.length l rfl

/-! The heap invariant and its preservation by insert (sift-up). -/

/-- The min-heap property of spec sections 3 and 8: for every non-root index
`i` below `size`, the element at the parent index `(i - 1) / 2` does not
compare `GREATER_THAN` the element at `i`. -/
def IsHeap {α : Type} [Inhabited α] (c : α → α → comparison_t)
    (l : List α) : Prop :=
  ∀ i : Nat, 0 < i → i < l.length →
    cle c (nthD l (binary_heap_get_parent_index i)) (nthD l i)

theorem binary_heap_get_parent_index_eq (i : Nat) :
    binary_heap_get_parent_index i = (i - 1) / 2 := rfl

/-- Loop invariant of `binary_heap_bubble_last_element`: the heap property
holds on every parent-child edge except possibly the edge into `hole`, and
the children of `hole` are already at least the parent of `hole` (so that
moving the parent down into `hole` cannot break their edges). -/
structure UpState {α : Type} [Inhabited α] (c : α → α → comparison_t)
    (l : List α) (hole : Nat) : Prop where
  bounded : hole < l.length
  heap : ∀ i, 0 < i → i < l.length → i ≠ hole →
    cle c (nthD l ((i - 1) / 2)) (nthD l i)
  below : ∀ i, 0 < i → i < l.length → (i - 1) / 2 = hole → 0 < hole →
    cle c (nthD l ((hole - 1) / 2)) (nthD l i)

theorem UpState.isHeap_of_stop {α : Type} [Inhabited α]
    {c : α → α → comparison_t} (hc : TotalCmp c) {l : List α} {hole : Nat}
    (st : UpState c l hole)
    (hstop : hole = 0 ∨ ¬ clt c (nthD l hole) (nthD l ((hole - 1) / 2))) :
    IsHeap c l := by
  intro i hi hlen
  rw [binary_heap_get_parent_index_eq]
  by_cases hih : i = hole
  · subst hih
    rcases hstop with h0 | hnlt
    · omega
    · exact hc.le_of_not_lt hnlt
  · exact st.heap i hi hlen hih

theorem UpState.swap_parent {α : Type} [Inhabited α] {c : α → α → comparison_t}
    (hc : TotalCmp c) {l : List α} {n : Nat} (st : UpState c l (n + 1))
    (hlt : clt c (nthD l (n + 1)) (nthD l (n / 2))) :
    UpState c (listSwap l (n + 1) (n / 2)) (n / 2) := by
  have hbound : n + 1 < l.length := st.bounded
  have hp : n / 2 < l.length := by omega
  have hvp : nthD (listSwap l (n + 1) (n / 2)) (n / 2) = nthD l (n + 1) := by
    rw [nthD_listSwap hbound hp, if_pos rfl]
  have hvh : nthD (listSwap l (n + 1) (n / 2)) (n + 1) = nthD l (n / 2) := by
    rw [nthD_listSwap hbound hp, if_neg (by omega), if_pos rfl]
  have hvo : ∀ k, k ≠ n / 2 → k ≠ n + 1 →
      nthD (listSwap l (n + 1) (n / 2)) k = nthD l k := by
    intro k h1 h2
    rw [nthD_listSwap hbound hp, if_neg h1, if_neg h2]
  have hle : cle c (nthD l (n + 1)) (nthD l (n / 2)) := hc.le_of_lt hlt
  refine ⟨by simpa using hp, ?_, ?_⟩
  · intro i hi hlen hne
    rw [listSwap_length] at hlen
    by_cases hih : i = n + 1
    · subst hih
      have hpari : (n + 1 - 1) / 2 = n / 2 := by omega
      rw [hpari, hvp, hvh]
      exact hle
    · by_cases hparh : (i - 1) / 2 = n + 1
      · rw [hparh, hvh, hvo i hne hih]
        have hb := st.below i hi hlen (by omega) (by omega)
        rw [show (n + 1 - 1) / 2 = n / 2 by omega] at hb
        exact hb
      · by_cases hparp : (i - 1) / 2 = n / 2
        · rw [hparp, hvp, hvo i hne hih]
          have h1 := st.heap i hi hlen hih
          rw [hparp] at h1
          exact hc.le_trans _ _ _ hle h1
        · rw [hvo _ hparp hparh, hvo i hne hih]
          exact st.heap i hi hlen hih
  · intro i hi hlen hpar hpos
    rw [listSwap_length] at hlen
    have hgp1 : (n / 2 - 1) / 2 ≠ n / 2 := by omega
    have hgp2 : (n / 2 - 1) / 2 ≠ n + 1 := by omega
    rw [hvo _ hgp1 hgp2]
    have hedge : cle c (nthD l ((n / 2 - 1) / 2)) (nthD l (n / 2)) :=
      st.heap (n / 2) (by omega) hp (by omega)
    by_cases hih : i = n + 1
    · subst hih
      rw [hvh]
      exact hedge
    · rw [hvo i (by omega) hih]
      have h1 : cle c (nthD l ((i - 1) / 2)) (nthD l i) :=
        st.heap i hi hlen hih
      rw [hpar] at h1
      exact hc.le_trans _ _ _ hedge h1

/-- Running the sift-up loop from a state satisfying the loop invariant
re-establishes the heap property, provided the fuel covers the start index. -/
theorem bubble_up_isHeap {α : Type} [Inhabited α] {c : α → α → comparison_t}
    (hc : TotalCmp c) :
    ∀ (fuel : Nat) (l : List α) (hole : Nat), hole ≤ fuel →
      UpState c l hole → IsHeap c (bubble_up c fuel l hole) := by
  intro fuel
  induction fuel with
  | zero =>
    intro l hole hle st
    have h0 : hole = 0 := by omega
    subst h0
    exact st.isHeap_of_stop hc (Or.inl rfl)
  | succ f ih =>
    intro l hole hle st
    cases hole with
    | zero => exact st.isHeap_of_stop hc (Or.inl rfl)
    | succ n =>
      have hbound : n + 1 < l.length := st.bounded
      have hpar : binary_heap_get_parent_index (n + 1) = n / 2 := by
        rw [binary_heap_get_parent_index_eq]
        omega
      simp only [bubble_up, hpar]
      rw [getElem?_eq_some_nthD hbound, getElem?_eq_some_nthD (by omega)]
      show IsHeap c
        (if c (nthD l (n + 1)) (nthD l (n / 2)) = LESS_THAN then
          bubble_up c f (listSwap l (n + 1) (n / 2)) (n / 2)
        else l)
      by_cases hcmp : c (nthD l (n + 1)) (nthD l (n / 2)) = LESS_THAN
      · rw [if_pos hcmp]
        exact ih _ _ (by omega) (st.swap_parent hc hcmp)
      · rw [if_neg hcmp]
        apply st.isHeap_of_stop hc
        refine Or.inr ?_
        rw [show (n + 1 - 1) / 2 = n / 2 by omega]
        exact hcmp

/-- Inserting into a heap preserves the heap property (heap.c
`binary_heap_insert` followed by `binary_heap_bubble_last_element`). -/
theorem binary_heap_insert_isHeap {α : Type} [Inhabited α]
    {c : α → α → comparison_t} (hc : TotalCmp c) {l : List α}
    (hl : IsHeap c l) (e : α) : IsHeap c (binary_heap_insert c l e) := by
  unfold binary_heap_insert binary_heap_bubble_last_element
  have hlen : (l ++ [e]).length = l.length + 1 := by simp
  rw [hlen]
  simp only [Nat.add_sub_cancel]
  apply bubble_up_isHeap hc _ _ _ (Nat.le_refl _)
  refine ⟨by omega, ?_, ?_⟩
  · intro i hi hilen hne
    rw [hlen] at hilen
    have hil : i < l.length := by omega
    rw [nthD_append_left _ hil, nthD_append_left _ (by omega)]
    have := hl i hi hil
    rwa [binary_heap_get_parent_index_eq] at this
  · intro i hi hilen hpare _
    rw [hlen] at hilen
    omega

/-! Preservation of the heap invariant by pop (sift-down). -/

/-- Characterisation of a `none` answer of `sift_step` (heap.c sift-down loop
body): the node at `index` is not greater than any present child. -/
theorem sift_step_none_spec {α : Type} [Inhabited α]
    {c : α → α → comparison_t} {l : List α} {h : Nat}
    (hbound : h < l.length) (hnone : sift_step c l h = none) :
    ∀ j, (j = 2 * h + 1 ∨ j = 2 * h + 2) → j < l.length →
      cle c (nthD l h) (nthD l j) := by
  intro j hj hjlen
  unfold sift_step at hnone
  simp only [binary_heap_get_left_child_index,
    binary_heap_get_right_child_index] at hnone
  by_cases hlp : 2 * h + 1 < l.length
  · by_cases hrp : 2 * h + 2 < l.length
    · rw [if_pos ⟨hlp, hrp⟩, getElem?_eq_some_nthD hbound,
        getElem?_eq_some_nthD hlp, getElem?_eq_some_nthD hrp] at hnone
      simp only at hnone
      by_cases hgl : c (nthD l h) (nthD l (2 * h + 1)) = GREATER_THAN
      · by_cases hgr : c (nthD l h) (nthD l (2 * h + 2)) = GREATER_THAN
        · rw [if_pos ⟨hgl, hgr⟩] at hnone
          split_ifs at hnone
        · rw [if_neg (by intro hand; exact hgr hand.2), if_pos hgl] at hnone
          cases hnone
      · by_cases hgr : c (nthD l h) (nthD l (2 * h + 2)) = GREATER_THAN
        · rw [if_neg (by intro hand; exact hgl hand.1), if_neg hgl,
            if_pos hgr] at hnone
          cases hnone
        · rcases hj with rfl | rfl
          · exact hgl
          · exact hgr
    · rw [if_neg (by intro hand; exact hrp hand.2), if_pos hlp,
        getElem?_eq_some_nthD hbound, getElem?_eq_some_nthD hlp] at hnone
      simp only at hnone
      by_cases hgl : c (nthD l h) (nthD l (2 * h + 1)) = GREATER_THAN
      · rw [if_pos hgl] at hnone
        cases hnone
      · rcases hj with rfl | rfl
        · exact hgl
        · omega
  · rcases hj with rfl | rfl <;> omega

/-- Characterisation of a `some` answer of `sift_step`: the chosen index is a
strictly larger in-range child index, the node is strictly greater (so the
child is strictly less) than the node, and the chosen child is not greater
than its present sibling. -/
theorem sift_step_some_spec {α : Type} [Inhabited α]
    {c : α → α → comparison_t} (hc : TotalCmp c) {l : List α} {h j : Nat}
    (hbound : h < l.length) (hsome : sift_step c l h = some j) :
    (j = 2 * h + 1 ∨ j = 2 * h + 2) ∧ j < l.length ∧
      clt c (nthD l j) (nthD l h) ∧
      ∀ s, (s = 2 * h + 1 ∨ s = 2 * h + 2) → s ≠ j → s < l.length →
        cle c (nthD l j) (nthD l s) := by
  unfold sift_step at hsome
  simp only [binary_heap_get_left_child_index,
    binary_heap_get_right_child_index] at hsome
  by_cases hlp : 2 * h + 1 < l.length
  · by_cases hrp : 2 * h + 2 < l.length
    · rw [if_pos ⟨hlp, hrp⟩, getElem?_eq_some_nthD hbound,
        getElem?_eq_some_nthD hlp, getElem?_eq_some_nthD hrp] at hsome
      simp only at hsome
      split_ifs at hsome with h1 h2 h3 h4 <;>
        rw [Option.some.injEq] at hsome <;> subst hsome
      · -- both greater, children compare LESS or EQUAL: swap left
        refine ⟨Or.inl rfl, hlp, (hc.gt_iff_lt _ _).mp h1.1, ?_⟩
        intro s hs hsne hslen
        rcases hs with rfl | rfl
        · exact absurd rfl hsne
        · rcases h2 with hlt | heq
          · exact hc.le_of_lt hlt
          · unfold cle
            intro hcon
            rw [heq] at hcon
            cases hcon
      · -- both greater, children compare GREATER: swap right
        refine ⟨Or.inr rfl, hrp, (hc.gt_iff_lt _ _).mp h1.2, ?_⟩
        intro s hs hsne hslen
        rcases hs with rfl | rfl
        · have hg : c (nthD l (2 * h + 1)) (nthD l (2 * h + 2)) =
              GREATER_THAN := by
            cases hcc : c (nthD l (2 * h + 1)) (nthD l (2 * h + 2)) with
            | LESS_THAN => exact absurd (Or.inl hcc) h2
            | GREATER_THAN => rfl
            | EQUAL_TO => exact absurd (Or.inr hcc) h2
          exact hc.le_of_lt ((hc.gt_iff_lt _ _).mp hg)
        · exact absurd rfl hsne
      · -- only the left comparison is GREATER: swap left
        refine ⟨Or.inl rfl, hlp, (hc.gt_iff_lt _ _).mp h3, ?_⟩
        intro s hs hsne hslen
        rcases hs with rfl | rfl
        · exact absurd rfl hsne
        · have hxr : cle c (nthD l h) (nthD l (2 * h + 2)) := by
            intro hcon
            exact h1 ⟨h3, hcon⟩
          have hlx : cle c (nthD l (2 * h + 1)) (nthD l h) :=
            hc.le_of_lt ((hc.gt_iff_lt _ _).mp h3)
          exact hc.le_trans _ _ _ hlx hxr
      · -- only the right comparison is GREATER: swap right
        refine ⟨Or.inr rfl, hrp, (hc.gt_iff_lt _ _).mp h4, ?_⟩
        intro s hs hsne hslen
        rcases hs with rfl | rfl
        · have hxl : cle c (nthD l h) (nthD l (2 * h + 1)) := h3
          have hrx : cle c (nthD l (2 * h + 2)) (nthD l h) :=
            hc.le_of_lt ((hc.gt_iff_lt _ _).mp h4)
          exact hc.le_trans _ _ _ hrx hxl
        · exact absurd rfl hsne
    · rw [if_neg (by intro hand; exact hrp hand.2), if_pos hlp,
        getElem?_eq_some_nthD hbound, getElem?_eq_some_nthD hlp] at hsome
      simp only at hsome
      split_ifs at hsome with h1
      · rw [Option.some.injEq] at hsome
        subst hsome
        refine ⟨Or.inl rfl, hlp, (hc.gt_iff_lt _ _).mp h1, ?_⟩
        intro s hs hsne hslen
        rcases hs with rfl | rfl
        · exact absurd rfl hsne
        · omega
  · by_cases hrp : 2 * h + 2 < l.length
    · omega
    · rw [if_neg (by intro hand; exact hlp hand.1), if_neg hlp,
        if_neg hrp] at hsome
      cases hsome

/-- Loop invariant of the sift-down loop in heap.c `binary_heap_pop_min`:
every parent-child edge whose parent is not `hole` is ordered, and once the
hole has moved below the root, the children of `hole` are already at least
the parent of `hole`. -/
structure DownState {α : Type} [Inhabited α] (c : α → α → comparison_t)
    (l : List α) (hole : Nat) : Prop where
  bounded : hole < l.length
  heap : ∀ i, 0 < i → i < l.length → (i - 1) / 2 ≠ hole →
    cle c (nthD l ((i - 1) / 2)) (nthD l i)
  above : 0 < hole → ∀ i, 0 < i → i < l.length → (i - 1) / 2 = hole →
    cle c (nthD l ((hole - 1) / 2)) (nthD l i)

theorem DownState.isHeap_of_dom {α : Type} [Inhabited α]
    {c : α → α → comparison_t} {l : List α} {hole : Nat}
    (st : DownState c l hole)
    (hdom : ∀ j, (j = 2 * hole + 1 ∨ j = 2 * hole + 2) → j < l.length →
      cle c (nthD l hole) (nthD l j)) : IsHeap c l := by
  intro i hi hlen
  rw [binary_heap_get_parent_index_eq]
  by_cases hpar : (i - 1) / 2 = hole
  · rw [hpar]
    exact hdom i (by omega) hlen
  · exact st.heap i hi hlen hpar

theorem DownState.swap_child {α : Type} [Inhabited α] {c : α → α → comparison_t}
    (hc : TotalCmp c) {l : List α} {hole j : Nat} (st : DownState c l hole)
    (hstep : sift_step c l hole = some j) :
    DownState c (listSwap l hole j) j := by
  obtain ⟨hj, hjlen, hlt, hsib⟩ := sift_step_some_spec hc st.bounded hstep
  have hbound : hole < l.length := st.bounded
  have hhj : hole < j := by omega
  have hvj : nthD (listSwap l hole j) j = nthD l hole := by
    rw [nthD_listSwap hbound hjlen, if_pos rfl]
  have hvh : nthD (listSwap l hole j) hole = nthD l j := by
    rw [nthD_listSwap hbound hjlen, if_neg (by omega), if_pos rfl]
  have hvo : ∀ k, k ≠ j → k ≠ hole →
      nthD (listSwap l hole j) k = nthD l k := by
    intro k h1 h2
    rw [nthD_listSwap hbound hjlen, if_neg h1, if_neg h2]
  have hparj : (j - 1) / 2 = hole := by omega
  refine ⟨by simpa using hjlen, ?_, ?_⟩
  · intro i hi hlen hne
    rw [listSwap_length] at hlen
    by_cases hij : i = j
    · subst hij
      rw [hparj, hvh, hvj]
      exact hc.le_of_lt hlt
    · by_cases hpari : (i - 1) / 2 = hole
      · rw [hpari, hvh, hvo i hij (by omega)]
        exact hsib i (by omega) hij hlen
      · by_cases hih : i = hole
        · rw [hih, hvh, hvo ((hole - 1) / 2) (by omega) (by omega)]
          exact st.above (by omega) j (by omega) hjlen hparj
        · rw [hvo ((i - 1) / 2) hne hpari, hvo i hij hih]
          exact st.heap i hi hlen hpari
  · intro _ i hi hlen hpar
    rw [listSwap_length] at hlen
    rw [hparj, hvh, hvo i (by omega) (by omega)]
    have h1 := st.heap i hi hlen (by omega)
    rw [hpar] at h1
    exact h1

/-- Running the sift-down loop from a state satisfying the loop invariant
re-establishes the heap property, provided the fuel covers the remaining
distance to the bottom. -/
theorem sift_down_isHeap {α : Type} [Inhabited α] {c : α → α → comparison_t}
    (hc : TotalCmp c) :
    ∀ (fuel : Nat) (l : List α) (hole : Nat), l.length - hole ≤ fuel →
      DownState c l hole → IsHeap c (sift_down c fuel l hole) := by
  intro fuel
  induction fuel with
  | zero =>
    intro l hole hle st
    exact absurd st.bounded (by omega)
  | succ f ih =>
    intro l hole hle st
    simp only [sift_down, binary_heap_get_left_child_index,
      binary_heap_get_right_child_index]
    by_cases hg : 2 * hole + 1 < l.length ∨ 2 * hole + 2 < l.length
    · rw [if_pos hg]
      cases hstep : sift_step c l hole with
      | some j =>
        obtain ⟨hj, hjlen, _, _⟩ := sift_step_some_spec hc st.bounded hstep
        exact ih _ _ (by rw [listSwap_length]; omega) (st.swap_child hc hstep)
      | none =>
        exact st.isHeap_of_dom (sift_step_none_spec st.bounded hstep)
    · rw [if_neg hg]
      exact st.isHeap_of_dom (fun j hj hjlen => by omega)

/-- Entries strictly between the root and the removed last slot survive
`binary_heap_replace_root_with_last` unchanged. -/
theorem nthD_replace_root {α : Type} [Inhabited α] {l : List α} {k : Nat}
    (hk : 0 < k) (hklen : k < l.length - 1) :
    nthD (binary_heap_replace_root_with_last l) k = nthD l k := by
  unfold binary_heap_replace_root_with_last
  have hne : l ≠ [] := by
    intro hcon
    subst hcon
    simp at hklen
  rw [List.getLast?_eq_getLast _ hne]
  rw [nthD_set_ne _ (by omega), nthD_eq_getElem?, nthD_eq_getElem?,
    List.getElem?_dropLast, if_pos (by omega)]

/-- Popping preserves the heap property (heap.c `binary_heap_pop_min`). -/
theorem binary_heap_pop_min_isHeap {α : Type} [Inhabited α]
    {c : α → α → comparison_t} (hc : TotalCmp c) {l : List α}
    (hl : IsHeap c l) : IsHeap c (binary_heap_pop_min c l).2 := by
  cases l with
  | nil =>
    intro i hi hlen
    rw [show (binary_heap_pop_min c ([] : List α)).2 = [] from rfl,
      List.length_nil] at hlen
    omega
  | cons x t =>
    cases t with
    | nil =>
      intro i hi hlen
      rw [show (binary_heap_pop_min c [x]).2 = [] from rfl,
        List.length_nil] at hlen
      omega
    | cons y s =>
      unfold binary_heap_pop_min binary_heap_min
      simp only [List.length_cons]
      rw [if_neg (by omega)]
      simp only [List.getElem?_cons_zero]
      have hlen : (binary_heap_replace_root_with_last (x :: y :: s)).length =
          s.length + 1 := by
        rw [binary_heap_replace_root_with_last_length]
        simp
      have hst : DownState c (binary_heap_replace_root_with_last
          (x :: y :: s)) 0 := by
        refine ⟨by omega, ?_, ?_⟩
        · intro i hi hilen hpar
          rw [hlen] at hilen
          have horig : (x :: y :: s).length = s.length + 2 := by simp
          rw [nthD_replace_root (by omega) (by rw [horig]; omega),
            nthD_replace_root hi (by rw [horig]; omega)]
          have := hl i hi (by rw [horig]; omega)
          rwa [binary_heap_get_parent_index_eq] at this
        · intro h0
          omega
      exact sift_down_isHeap hc _ _ 0 (by omega) hst

/-! The root of a heap is a minimum, and draining a heap is sorted. -/

/-- In a heap, the root is not greater than any element. -/
theorem IsHeap.root_min {α : Type} [Inhabited α] {c : α → α → comparison_t}
    (hc : TotalCmp c) {l : List α} (hl : IsHeap c l) :
    ∀ i, i < l.length → cle c (nthD l 0) (nthD l i) := by
  intro i
  induction i using Nat.strong_induction_on with
  | _ i ih =>
    intro hlen
    by_cases h0 : i = 0
    · subst h0
      exact hc.le_refl _
    · have hpar := hl i (by omega) hlen
      rw [binary_heap_get_parent_index_eq] at hpar
      have hup := ih ((i - 1) / 2) (by omega) (by omega)
      exact hc.le_trans _ _ _ hup hpar

/-- In a nonempty heap, the stored root is not greater than any member. -/
theorem IsHeap.head_le_mem {α : Type} [Inhabited α]
    {c : α → α → comparison_t} (hc : TotalCmp c) {x : α} {t : List α}
    (hl : IsHeap c (x :: t)) {y : α} (hy : y ∈ x :: t) : cle c x y := by
  obtain ⟨n, hn⟩ := List.mem_iff_getElem?.mp hy
  have hnlen : n < (x :: t).length := by
    by_contra hcon
    rw [List.getElem?_eq_none (by omega)] at hn
    cases hn
  have h0 : nthD (x :: t) 0 = x := rfl
  have hny : nthD (x :: t) n = y := by
    rw [nthD_eq_getElem?, hn]
    rfl
  have := hl.root_min hc n hnlen
  rwa [h0, hny] at this

/-- Draining a heap with enough fuel produces a list sorted by the
not-greater-than relation of the comparator. -/
theorem pop_all_fuel_sorted {α : Type} [Inhabited α]
    {c : α → α → comparison_t} (hc : TotalCmp c) :
    ∀ (fuel : Nat) (l : List α), fuel = l.length → IsHeap c l →
      List.Sorted (cle c) (pop_all_fuel c fuel l) := by
  intro fuel
  induction fuel with
  | zero =>
    intro l _ _
    exact List.sorted_nil
  | succ f ih =>
    intro l hfuel hl
    cases l with
    | nil => simp at hfuel
    | cons x t =>
      simp only [pop_all_fuel]
      have h1 := binary_heap_pop_min_cons c x t
      have h2 := binary_heap_pop_min_cons_perm c x t
      have h3 := binary_heap_pop_min_cons_length c x t
      have h4 := binary_heap_pop_min_isHeap hc hl
      cases hp : binary_heap_pop_min c (x :: t) with
      | mk r rest =>
        rw [hp] at h1 h2 h3 h4
        simp only at h1 h2 h3 h4
        subst h1
        have hf : f = rest.length := by
          simp only [List.length_cons] at hfuel
          omega
        show List.Sorted (cle c) (x :: pop_all_fuel c f rest)
        rw [List.sorted_cons]
        constructor
        · intro y hy
          have hyrest : y ∈ rest :=
            ((pop_all_fuel_perm c f rest hf).mem_iff).mp hy
          have hyt : y ∈ t := h2.mem_iff.mp hyrest
          exact hl.head_le_mem hc (List.mem_cons_of_mem x hyt)
        · exact ih rest hf h4

/-- Draining a heap yields its elements sorted by the comparator. -/
theorem binary_heap_pop_all_sorted {α : Type} [Inhabited α]
    {c : α → α → comparison_t} (hc : TotalCmp c) {l : List α}
    (hl : IsHeap c l) : List.Sorted (cle c) (binary_heap_pop_all c l) :=
  pop_all_fuel_sorted hc l.length l rfl hl

/-! Building a heap by repeated insertion. -/

theorem binary_heap_build_isHeap {α : Type} [Inhabited α]
    {c : α → α → comparison_t} (hc : TotalCmp c) (xs : List α) :
    IsHeap c (binary_heap_build c xs) := by
  unfold binary_heap_build
  have hgen : ∀ (ys : List α) (l : List α), IsHeap c l →
      IsHeap c (List.foldl (binary_heap_insert c) l ys) := by
    intro ys
    induction ys with
    | nil => intro l hl; exact hl
    | cons y ys ihy =>
      intro l hl
      exact ihy _ (binary_heap_insert_isHeap hc hl y)
  apply hgen
  intro i hi hlen
  rw [List.length_nil] at hlen
  omega

theorem binary_heap_build_perm {α : Type} (c : α → α → comparison_t)
    (xs : List α) : (binary_heap_build c xs).Perm xs := by
  unfold binary_heap_build
  have hgen : ∀ (ys : List α) (l : List α),
      (List.foldl (binary_heap_insert c) l ys).Perm (l ++ ys) := by
    intro ys
    induction ys with
    | nil => intro l; simp
    | cons y ys ihy =>
      intro l
      have h1 := ihy (binary_heap_insert c l y)
      have h2 : ((binary_heap_insert c l y) ++ ys).Perm ((l ++ [y]) ++ ys) :=
        (binary_heap_insert_perm c l y).append_right ys
      have h3 : (l ++ [y]) ++ ys = l ++ y :: ys := by simp
      rw [h3] at h2
      exact h1.trans h2
  have := hgen xs []
  simpa using this

/-! The event queue layer (event_queue.c). -/

/-- From heap.c `create_empty_heap`: a heap starts with no elements. -/
def create_empty_heap {α : Type} : List α := []

/-- Result of reading through a pointer that may be `NULL`: `null_deref`
marks the places where the C code dereferences the `NULL` returned by
`binary_heap_min` / `binary_heap_pop_min` on an empty heap (an undefined
access, not a reported result). -/
inductive deref_result (β : Type) : Type where
  | ok (val : β)
  | null_deref
deriving DecidableEq

/-- From event_queue.c `event_queue_enqueue`: wrap the payload and time into
a fresh event and insert it into the underlying heap, whose comparator is
`event_comparator` over the bound `time_comparator` of the queue. -/
def event_queue_enqueue {α τ : Type} (time_comparator : τ → τ → comparison_t)
    (q : List (event α τ)) (elem : α) (time : τ) : List (event α τ) :=
  binary_heap_insert (event_comparator time_comparator) q ⟨elem, time⟩

/-- From event_queue.c `event_queue_size`: delegates to `binary_heap_size`. -/
def event_queue_size {α τ : Type} (q : List (event α τ)) : Nat :=
  binary_heap_size q

/-- From event_queue.c `event_queue_peek`: reads `binary_heap_min` and then
unconditionally dereferences the result (`event->data`, `event->time`).  When
the queue is empty, `binary_heap_min` is `NULL` and the dereference is an
undefined access, modeled by `null_deref`. -/
def event_queue_peek {α τ : Type} (q : List (event α τ)) :
    deref_result (α × τ) :=
  match binary_heap_min q with
  | none => deref_result.null_deref
  | some e => deref_result.ok (e.data, e.time)

/-- From event_queue.c `event_queue_dequeue`: pops the minimum event and
unconditionally dereferences it (`event_popped->data`, `event_popped->time`),
then frees the event wrapper.  When the queue is empty, `binary_heap_pop_min`
is `NULL` and the dereference is an undefined access, modeled by
`null_deref`. -/
def event_queue_dequeue {α τ : Type}
    (time_comparator : τ → τ → comparison_t) (q : List (event α τ)) :
    deref_result (α × τ) × List (event α τ) :=
  match binary_heap_pop_min (event_comparator time_comparator) q with
  | (none, q') => (deref_result.null_deref, q')
  | (some e, q') => (deref_result.ok (e.data, e.time), q')

/-- Repeatedly call `event_queue_dequeue` (at most `fuel` times), collecting
the returned (payload, time) pairs until the queue reports empty. -/
def dequeue_all_fuel {α τ : Type} (time_comparator : τ → τ → comparison_t) :
    Nat → List (event α τ) → List (α × τ)
  | 0, _ => []
  | fuel + 1, q =>
    match event_queue_dequeue time_comparator q with
    | (deref_result.ok p, q') => p :: dequeue_all_fuel time_comparator fuel q'
    | (deref_result.null_deref, _) => []

/-- Dequeue until the queue is empty (`size` many dequeues drain it). -/
def event_queue_dequeue_all {α τ : Type}
    (time_comparator : τ → τ → comparison_t) (q : List (event α τ)) :
    List (α × τ) :=
  dequeue_all_fuel time_comparator q.length q

/-- Build an event queue state by enqueueing the given (payload, time) pairs
in order, starting from the empty queue produced by the constructors. -/
def event_queue_build {α τ : Type} (time_comparator : τ → τ → comparison_t)
    (entries : List (α × τ)) : List (event α τ) :=
  List.foldl (fun q p => event_queue_enqueue time_comparator q p.1 p.2)
    [] entries

/-! Double-precision times (event_queue.c `struct double_time`,
`double_time_comparator`, `event_queue_enqueue_double_time`,
`event_queue_dequeue_double_time`). -/

/-- Model of an IEEE-754 `double` for the time comparators: a finite numeric
value (represented exactly as a rational; every finite double is a rational)
or NaN.  Infinities are not needed by the claims and are omitted.  In IEEE
754 arithmetic every ordered comparison (`<`, `>`) involving NaN is false,
which is what `dlt` encodes. -/
inductive DoubleVal : Type where
  | num (q : ℚ)
  | nan
deriving DecidableEq

instance : Inhabited DoubleVal := ⟨DoubleVal.num 0⟩

/-- IEEE-754 `<` on modeled doubles: false whenever either side is NaN. -/
def dlt : DoubleVal → DoubleVal → Bool
  | DoubleVal.num a, DoubleVal.num b => decide (a < b)
  | _, _ => false

/-- From event_queue.c `double_time_comparator`: `LESS_THAN` when
`lhs < rhs`, `GREATER_THAN` when `lhs > rhs`, otherwise `EQUAL_TO`. -/
def double_time_comparator (lhs rhs : DoubleVal) : comparison_t :=
  if dlt lhs rhs then LESS_THAN
  else if dlt rhs lhs then GREATER_THAN
  else EQUAL_TO

/-- From event_queue.c `event_queue_enqueue_double_time`: box the raw double
into a `struct double_time` wrapper (the wrapper holds exactly the value)
and enqueue it on the double-time queue built by `create_queue_double_time`
(whose bound time comparator is `double_time_comparator`). -/
def event_queue_enqueue_double_time {α : Type}
    (q : List (event α DoubleVal)) (elem : α) (time_val : DoubleVal) :
    List (event α DoubleVal) :=
  event_queue_enqueue double_time_comparator q elem time_val

/-- From event_queue.c `event_queue_dequeue_double_time`: dequeue, then read
the boxed double through `unsigned int time_val = time->time;` and return
`time_val` as the `double` result of the function.  For finite non-negative
doubles below `2^32` the conversion truncates toward zero, modeled by
`q.num / q.den` in integer division; NaN or out-of-range values make the
conversion undefined in C and are modeled as `none`, as is the empty-queue
`NULL` dereference inside `event_queue_dequeue`. -/
def event_queue_dequeue_double_time {α : Type}
    (q : List (event α DoubleVal)) :
    Option (α × ℚ) × List (event α DoubleVal) :=
  match event_queue_dequeue double_time_comparator q with
  | (deref_result.ok (data, DoubleVal.num t), q') =>
    if 0 ≤ t ∧ t < 2 ^ 32 then
      (some (data, ((t.num / (t.den : Int) : Int) : ℚ)), q')
    else (none, q')
  | (deref_result.ok (_, DoubleVal.nan), q') => (none, q')
  | (deref_result.null_deref, q') => (none, q')

theorem pop_iter_length {α : Type} (c : α → α → comparison_t) :
    ∀ (m : Nat) (l : List α), m ≤ l.length →
      (pop_iter c m l).length = l.length - m := by
  intro m
  induction m with
  | zero => intro l _; rfl
  | succ k ih =>
    intro l hm
    cases l with
    | nil => simp at hm
    | cons x t =>
      simp only [pop_iter]
      have hlen := binary_heap_pop_min_cons_length c x t
      have hk : k ≤ (binary_heap_pop_min c (x :: t)).2.length := by
        rw [hlen]
        simp only [List.length_cons] at hm
        omega
      rw [ih _ hk, hlen]
      simp only [List.length_cons]
      omega

/-! Claim theorems. -/

/-- Both mutating operations preserve the heap invariant, hence so does any
operation sequence. -/
theorem binary_heap_run_isHeap {α : Type} [Inhabited α]
    {c : α → α → comparison_t} (hc : TotalCmp c) (ops : List (heap_op α)) :
    ∀ (l : List α), IsHeap c l → IsHeap c (binary_heap_run c l ops) := by
  induction ops with
  | nil => intro l hl; exact hl
  | cons op ops ihop =>
    intro l hl
    cases op with
    | insert e => exact ihop _ (binary_heap_insert_isHeap hc hl e)
    | pop_min => exact ihop _ (binary_heap_pop_min_isHeap hc hl)

/-- C1: for every heap built by any sequence of `binary_heap_insert` and
`binary_heap_pop_min` operations starting from `create_empty_heap`, and for
every non-root index `i` with `i < size`, the comparator applied to the
element at the parent index `(i - 1) / 2` and the element at index `i` never
returns `GREATER_THAN`: the array is a min-heap under the supplied
(total-order-producing) comparator after every operation. -/
theorem binary_heap_run_heap_property {α : Type} [Inhabited α]
    {c : α → α → comparison_t} (hc : TotalCmp c) (ops : List (heap_op α))
    (i : Nat) (hi : 0 < i)
    (hlen : i < (binary_heap_run c create_empty_heap ops).length) :
    c (nthD (binary_heap_run c create_empty_heap ops)
        (binary_heap_get_parent_index i))
      (nthD (binary_heap_run c create_empty_heap ops) i) ≠ GREATER_THAN := by
  have hrun := binary_heap_run_isHeap hc ops
  have hempty : IsHeap c (create_empty_heap (α := α)) := by
    intro j hj hjlen
    rw [show (create_empty_heap (α := α)).length = 0 from rfl] at hjlen
    omega
  exact hrun _ hempty i hi hlen

theorem binary_heap_run_heap_property_witness :
    0 < 1 ∧
    1 < (binary_heap_run uint_time_comparator create_empty_heap
      [heap_op.insert 3, heap_op.insert 1, heap_op.insert 2,
        heap_op.pop_min]).length ∧
    uint_time_comparator
        (nthD (binary_heap_run uint_time_comparator create_empty_heap
          [heap_op.insert 3, heap_op.insert 1, heap_op.insert 2,
            heap_op.pop_min]) (binary_heap_get_parent_index 1))
        (nthD (binary_heap_run uint_time_comparator create_empty_heap
          [heap_op.insert 3, heap_op.insert 1, heap_op.insert 2,
            heap_op.pop_min]) 1) ≠ GREATER_THAN :=
  ⟨by decide, by decide,
    binary_heap_run_heap_property uint_time_comparator_linear.toTotalCmp
      [heap_op.insert 3, heap_op.insert 1, heap_op.insert 2, heap_op.pop_min]
      1 (by decide) (by decide)⟩

/-- C3: for every finite sequence of elements and every total-order
comparator, inserting all elements into a fresh heap and popping with
`binary_heap_pop_min` until empty yields the elements in non-decreasing
comparator order, and the pop sequence depends only on the multiset of
elements, not on the insertion order. -/
theorem binary_heap_pop_all_sorted_perm_invariant {α : Type} [Inhabited α]
    {c : α → α → comparison_t} (hc : LinearCmp c) (xs ys : List α)
    (hperm : xs.Perm ys) :
    List.Sorted (cle c) (binary_heap_pop_all c (binary_heap_build c xs)) ∧
    (binary_heap_pop_all c (binary_heap_build c xs)).Perm xs ∧
    binary_heap_pop_all c (binary_heap_build c xs) =
      binary_heap_pop_all c (binary_heap_build c ys) := by
  have hsx := binary_heap_pop_all_sorted hc.toTotalCmp
    (binary_heap_build_isHeap hc.toTotalCmp xs)
  have hsy := binary_heap_pop_all_sorted hc.toTotalCmp
    (binary_heap_build_isHeap hc.toTotalCmp ys)
  have hpx := (binary_heap_pop_all_perm c
    (binary_heap_build c xs)).trans (binary_heap_build_perm c xs)
  have hpy := (binary_heap_pop_all_perm c
    (binary_heap_build c ys)).trans (binary_heap_build_perm c ys)
  haveI : IsAntisymm α (cle c) := ⟨fun a b hab hba => hc.le_antisymm hab hba⟩
  exact ⟨hsx, hpx,
    List.eq_of_perm_of_sorted ((hpx.trans hperm).trans hpy.symm) hsx hsy⟩

theorem binary_heap_pop_all_sorted_perm_invariant_witness :
    ([3, 1, 2] : List Nat).Perm [2, 3, 1] ∧
    (List.Sorted (cle uint_time_comparator)
        (binary_heap_pop_all uint_time_comparator
          (binary_heap_build uint_time_comparator [3, 1, 2])) ∧
      (binary_heap_pop_all uint_time_comparator
        (binary_heap_build uint_time_comparator [3, 1, 2])).Perm [3, 1, 2] ∧
      binary_heap_pop_all uint_time_comparator
          (binary_heap_build uint_time_comparator [3, 1, 2]) =
        binary_heap_pop_all uint_time_comparator
          (binary_heap_build uint_time_comparator [2, 3, 1])) :=
  ⟨by decide,
    binary_heap_pop_all_sorted_perm_invariant uint_time_comparator_linear
      [3, 1, 2] [2, 3, 1] (by decide)⟩

/-- C4: inserting the `k` elements of `xs` into a fresh heap and then
popping `size` (= `k`) many times returns exactly those `k` elements as a
multiset, each exactly once: nothing is lost, duplicated or invented.  This
holds for an arbitrary comparator, since insert and pop only permute the
stored elements. -/
theorem binary_heap_round_trip {α : Type} (c : α → α → comparison_t)
    (xs : List α) :
    (binary_heap_pop_all c (binary_heap_build c xs)).Perm xs ∧
    (binary_heap_pop_all c (binary_heap_build c xs)).length = xs.length ∧
    (binary_heap_build c xs).length = xs.length := by
  have h := (binary_heap_pop_all_perm c
    (binary_heap_build c xs)).trans (binary_heap_build_perm c xs)
  exact ⟨h, h.length_eq, (binary_heap_build_perm c xs).length_eq⟩

/-- C5: after inserting the `n` elements of `xs` into an empty heap and then
popping `m ≤ n` times, `binary_heap_size` returns `n - m`; and calling
`binary_heap_pop_min` (or `binary_heap_min`) on a heap of size `0` returns
the absent result and leaves the heap contents completely unchanged. -/
theorem binary_heap_size_accounting {α : Type} (c : α → α → comparison_t)
    (xs : List α) (m : Nat) (hm : m ≤ xs.length) :
    binary_heap_size (pop_iter c m (binary_heap_build c xs)) =
      xs.length - m ∧
    (∀ l : List α, binary_heap_size l = 0 →
      binary_heap_pop_min c l = (none, l) ∧ binary_heap_min l = none) := by
  constructor
  · have hb : (binary_heap_build c xs).length = xs.length :=
      (binary_heap_build_perm c xs).length_eq
    unfold binary_heap_size
    rw [pop_iter_length c m _ (by rw [hb]; exact hm), hb]
  · intro l hl
    unfold binary_heap_size at hl
    have : l = [] := List.length_eq_zero.mp hl
    subst this
    exact ⟨rfl, rfl⟩

theorem binary_heap_size_accounting_witness :
    2 ≤ ([5, 4, 3] : List Nat).length ∧
    (binary_heap_size (pop_iter uint_time_comparator 2
        (binary_heap_build uint_time_comparator [5, 4, 3])) =
      ([5, 4, 3] : List Nat).length - 2 ∧
    (∀ l : List Nat, binary_heap_size l = 0 →
      binary_heap_pop_min uint_time_comparator l = (none, l) ∧
        binary_heap_min l = none)) :=
  ⟨by decide,
    binary_heap_size_accounting uint_time_comparator [5, 4, 3] 2 (by decide)⟩

/-- Enqueueing is exactly heap insertion of wrapped events. -/
theorem event_queue_build_eq {α τ : Type}
    (time_comparator : τ → τ → comparison_t) (entries : List (α × τ)) :
    event_queue_build time_comparator entries =
      binary_heap_build (event_comparator time_comparator)
        (entries.map (fun p => ⟨p.1, p.2⟩)) := by
  unfold event_queue_build binary_heap_build event_queue_enqueue
  rw [List.foldl_map]

/-- Repeated dequeueing is exactly repeated popping followed by unwrapping
each popped event into its (payload, time) pair. -/
theorem dequeue_all_fuel_eq {α τ : Type}
    (time_comparator : τ → τ → comparison_t) :
    ∀ (fuel : Nat) (q : List (event α τ)),
      dequeue_all_fuel time_comparator fuel q =
        (pop_all_fuel (event_comparator time_comparator) fuel q).map
          (fun e => (e.data, e.time)) := by
  intro fuel
  induction fuel with
  | zero => intro q; rfl
  | succ f ih =>
    intro q
    simp only [dequeue_all_fuel, pop_all_fuel, event_queue_dequeue]
    cases hp : binary_heap_pop_min (event_comparator time_comparator) q with
    | mk r rest =>
      cases r with
      | none => rfl
      | some e =>
        simp only [List.map_cons]
        rw [ih rest]

/-- C2: for every event queue built by any sequence of enqueues (under a
total-order-producing time comparator), repeatedly calling
`event_queue_dequeue` until the queue is empty yields the time
values of the events in non-decreasing order according to the bound
`time_comparator` of the queue. -/
theorem event_queue_dequeue_times_sorted {α τ : Type} [Inhabited α]
    [Inhabited τ] {time_comparator : τ → τ → comparison_t}
    (hc : TotalCmp time_comparator) (entries : List (α × τ)) :
    List.Sorted (cle time_comparator)
      ((event_queue_dequeue_all time_comparator
        (event_queue_build time_comparator entries)).map Prod.snd) := by
  unfold event_queue_dequeue_all
  rw [dequeue_all_fuel_eq, List.map_map]
  have hec : TotalCmp (event_comparator (α := α) time_comparator) :=
    event_comparator_total hc
  have hheap : IsHeap (event_comparator time_comparator)
      (event_queue_build time_comparator entries) := by
    rw [event_queue_build_eq]
    exact binary_heap_build_isHeap hec _
  have hsorted : List.Sorted (cle (event_comparator time_comparator))
      (pop_all_fuel (event_comparator time_comparator)
        (event_queue_build time_comparator entries).length
        (event_queue_build time_comparator entries)) :=
    pop_all_fuel_sorted hec _ _ rfl hheap
  exact List.Pairwise.map _ (fun a b hab => hab) hsorted

theorem event_queue_dequeue_times_sorted_witness :
    List.Sorted (cle uint_time_comparator)
      ((event_queue_dequeue_all uint_time_comparator
        (event_queue_build uint_time_comparator
          ([(0, 20), (1, 30), (2, 10), (3, 40)] : List (Nat × Nat)))).map
        Prod.snd) :=
  event_queue_dequeue_times_sorted uint_time_comparator_linear.toTotalCmp
    [(0, 20), (1, 30), (2, 10), (3, 40)]

/-- C6 (evaluation at the failing input): on an event queue of size `0` the
underlying heap operations do report the explicit absent result
(`binary_heap_min` and `binary_heap_pop_min` return `NULL`), but
`event_queue_peek` and `event_queue_dequeue` dereference that `NULL` event
pointer unconditionally (`event->data`, `event_popped->data` in
event_queue.c), an undefined access rather than a reported empty result. -/
theorem event_queue_empty_query_null_deref :
    binary_heap_min ([] : List (event Nat Nat)) = none ∧
    binary_heap_pop_min (event_comparator uint_time_comparator)
      ([] : List (event Nat Nat)) = (none, []) ∧
    event_queue_peek ([] : List (event Nat Nat)) =
      deref_result.null_deref ∧
    (event_queue_dequeue uint_time_comparator
      ([] : List (event Nat Nat))).1 = deref_result.null_deref :=
  ⟨rfl, rfl, rfl, rfl⟩

/-- C7 (evaluation at the failing input): enqueue one event with double time
`5/2` on a double-time queue; `event_queue_dequeue_double_time` stores the
unboxed double into an `unsigned int` local (`unsigned int time_val =
time->time;`, event_queue.c line 269) before returning it as `double`, so
the caller receives `2`, not the enqueued `5/2`. -/
theorem event_queue_dequeue_double_time_truncates :
    (event_queue_dequeue_double_time
      (event_queue_enqueue_double_time ([] : List (event Nat DoubleVal)) 0
        (DoubleVal.num (5 / 2)))).1 = some (0, 2) ∧ (5 / 2 : ℚ) ≠ 2 := by
  have h : (5 / 2 : ℚ) = mkRat 5 2 := by norm_num [Rat.mkRat_eq_div]
  rw [h]
  exact ⟨by decide, by decide⟩

/-- C10: the built-in double-precision time comparator returns `EQUAL_TO`
whenever either argument is NaN (both ordered tests are IEEE-false), so in a
queue built by `create_queue_double_time` an event whose time is NaN
compares `EQUAL_TO` every other event, and the comparator is not a total
order over all double values. -/
theorem double_time_comparator_nan_equal :
    (∀ x : DoubleVal, double_time_comparator DoubleVal.nan x = EQUAL_TO ∧
      double_time_comparator x DoubleVal.nan = EQUAL_TO) ∧
    (∀ {α : Type} (e e2 : event α DoubleVal), e.time = DoubleVal.nan →
      event_comparator double_time_comparator e e2 = EQUAL_TO ∧
      event_comparator double_time_comparator e2 e = EQUAL_TO) ∧
    ¬ TotalCmp double_time_comparator := by
  have hnan : ∀ x : DoubleVal,
      double_time_comparator DoubleVal.nan x = EQUAL_TO ∧
      double_time_comparator x DoubleVal.nan = EQUAL_TO := by
    intro x
    cases x <;> exact ⟨rfl, rfl⟩
  refine ⟨hnan, ?_, ?_⟩
  · intro β e e2 he
    unfold event_comparator
    rw [he]
    exact ⟨(hnan e2.time).1, (hnan e2.time).2⟩
  · intro h
    have h1 : cle double_time_comparator (DoubleVal.num 2) DoubleVal.nan := by
      unfold cle
      decide
    have h2 : cle double_time_comparator DoubleVal.nan (DoubleVal.num 1) := by
      unfold cle
      decide
    have h3 := h.le_trans (DoubleVal.num 2) DoubleVal.nan (DoubleVal.num 1)
      h1 h2
    exact h3 (by decide)

theorem double_time_comparator_nan_equal_witness :
    (event.mk 0 DoubleVal.nan : event Nat DoubleVal).time = DoubleVal.nan ∧
    (event_comparator double_time_comparator
        (event.mk 0 DoubleVal.nan : event Nat DoubleVal)
        (event.mk 1 (DoubleVal.num 3)) = EQUAL_TO ∧
      event_comparator double_time_comparator
        (event.mk 1 (DoubleVal.num 3) : event Nat DoubleVal)
        (event.mk 0 DoubleVal.nan) = EQUAL_TO) :=
  ⟨rfl, double_time_comparator_nan_equal.2.1
    (event.mk 0 DoubleVal.nan) (event.mk 1 (DoubleVal.num 3)) rfl⟩

/-- A swap target produced by `sift_step` is one of the two child indices. -/
theorem sift_step_some_child {α : Type} {c : α → α → comparison_t}
    {l : List α} {index j : Nat} (h : sift_step c l index = some j) :
    j = 2 * index + 1 ∨ j = 2 * index + 2 := by
  unfold sift_step at h
  simp only [binary_heap_get_left_child_index,
    binary_heap_get_right_child_index] at h
  split at h
  · split at h
    · split at h
      · split at h <;> (simp only [Option.some.injEq] at h; omega)
      · split at h
        · simp only [Option.some.injEq] at h; omega
        · split at h
          · simp only [Option.some.injEq] at h; omega
          · exact absurd h (by simp)
    · exact absurd h (by simp)
  · split at h
    · split at h
      · split at h
        · simp only [Option.some.injEq] at h; omega
        · exact absurd h (by simp)
      · exact absurd h (by simp)
    · split at h
      · split at h
        · split at h
          · simp only [Option.some.injEq] at h; omega
          · exact absurd h (by simp)
        · exact absurd h (by simp)
      · exact absurd h (by simp)

/-- C9: during the sift-down of `binary_heap_pop_min`, at a step with both
children present the node swaps exactly when it compares `GREATER_THAN` at
least one child, and then with the strictly smaller of the two children,
where an `EQUAL_TO` comparison between the two children sends the swap
toward the left child; when it compares `LESS_THAN` or `EQUAL_TO` both
children no swap occurs; with only one (left) child present, it swaps with
that child exactly when it compares `GREATER_THAN` it; and the loop
continues from the position of the swapped child, or stops when no swap is
chosen. -/
theorem sift_step_decision_spec {α : Type} [Inhabited α]
    {c : α → α → comparison_t} (hc : TotalCmp c) (l : List α)
    (index fuel : Nat) :
    (2 * index + 2 < l.length →
      ((c (nthD l index) (nthD l (2 * index + 1)) = GREATER_THAN ∨
          c (nthD l index) (nthD l (2 * index + 2)) = GREATER_THAN) →
        sift_step c l index = some
          (if c (nthD l (2 * index + 1)) (nthD l (2 * index + 2)) =
              GREATER_THAN
            then 2 * index + 2 else 2 * index + 1)) ∧
      (c (nthD l index) (nthD l (2 * index + 1)) ≠ GREATER_THAN ∧
          c (nthD l index) (nthD l (2 * index + 2)) ≠ GREATER_THAN →
        sift_step c l index = none)) ∧
    (2 * index + 1 < l.length → ¬ 2 * index + 2 < l.length →
      sift_step c l index =
        (if c (nthD l index) (nthD l (2 * index + 1)) = GREATER_THAN
          then some (2 * index + 1) else none)) ∧
    (∀ j, sift_step c l index = some j →
      sift_down c (fuel + 1) l index =
        sift_down c fuel (listSwap l index j) j) ∧
    (sift_step c l index = none → sift_down c (fuel + 1) l index = l) := by
  refine ⟨?_, ?_, ?_, ?_⟩
  · intro hrp
    have hlp : 2 * index + 1 < l.length := by omega
    have hbound : index < l.length := by omega
    unfold sift_step
    simp only [binary_heap_get_left_child_index,
      binary_heap_get_right_child_index]
    rw [if_pos ⟨hlp, hrp⟩, getElem?_eq_some_nthD hbound,
      getElem?_eq_some_nthD hlp, getElem?_eq_some_nthD hrp]
    simp only
    constructor
    · intro hor
      by_cases hgl : c (nthD l index) (nthD l (2 * index + 1)) = GREATER_THAN
      · by_cases hgr : c (nthD l index) (nthD l (2 * index + 2)) =
            GREATER_THAN
        · rw [if_pos ⟨hgl, hgr⟩]
          cases hcc : c (nthD l (2 * index + 1)) (nthD l (2 * index + 2)) with
          | LESS_THAN =>
            rw [if_pos (Or.inl rfl), if_neg (by intro h; cases h)]
          | EQUAL_TO =>
            rw [if_pos (Or.inr rfl), if_neg (by intro h; cases h)]
          | GREATER_THAN =>
            rw [if_neg (by intro h; rcases h with h | h <;> cases h),
              if_pos rfl]
        · rw [if_neg (by intro hand; exact hgr hand.2), if_pos hgl]
          have hlr : clt c (nthD l (2 * index + 1)) (nthD l (2 * index + 2)) :=
            hc.lt_of_lt_of_le ((hc.gt_iff_lt _ _).mp hgl) hgr
          rw [if_neg (by intro h; rw [hlr] at h; cases h)]
      · have hgr : c (nthD l index) (nthD l (2 * index + 2)) =
            GREATER_THAN := by
          rcases hor with h | h
          · exact absurd h hgl
          · exact h
        rw [if_neg (by intro hand; exact hgl hand.1), if_neg hgl, if_pos hgr]
        have hrl : clt c (nthD l (2 * index + 2)) (nthD l (2 * index + 1)) :=
          hc.lt_of_lt_of_le ((hc.gt_iff_lt _ _).mp hgr) hgl
        rw [if_pos ((hc.gt_iff_lt _ _).mpr hrl)]
    · intro hand
      rw [if_neg (by intro h; exact hand.1 h.1), if_neg hand.1,
        if_neg hand.2]
  · intro hlp hrp
    have hbound : index < l.length := by omega
    unfold sift_step
    simp only [binary_heap_get_left_child_index,
      binary_heap_get_right_child_index]
    rw [if_neg (by intro hand; exact hrp hand.2), if_pos hlp,
      getElem?_eq_some_nthD hbound, getElem?_eq_some_nthD hlp]
  · intro j hstep
    have hj := sift_step_some hstep
    have hchild := sift_step_some_child hstep
    simp only [sift_down, binary_heap_get_left_child_index,
      binary_heap_get_right_child_index]
    rw [if_pos (by omega), hstep]
  · intro hstep
    simp only [sift_down, binary_heap_get_left_child_index,
      binary_heap_get_right_child_index]
    by_cases hg : 2 * index + 1 < l.length ∨ 2 * index + 2 < l.length
    · rw [if_pos hg, hstep]
    · rw [if_neg hg]

theorem sift_step_decision_spec_witness :
    2 * 0 + 2 < ([5, 1, 9] : List Nat).length ∧
    (uint_time_comparator (nthD ([5, 1, 9] : List Nat) 0)
        (nthD ([5, 1, 9] : List Nat) (2 * 0 + 1)) = GREATER_THAN ∨
      uint_time_comparator (nthD ([5, 1, 9] : List Nat) 0)
        (nthD ([5, 1, 9] : List Nat) (2 * 0 + 2)) = GREATER_THAN) ∧
    sift_step uint_time_comparator ([5, 1, 9] : List Nat) 0 = some
      (if uint_time_comparator (nthD ([5, 1, 9] : List Nat) (2 * 0 + 1))
          (nthD ([5, 1, 9] : List Nat) (2 * 0 + 2)) = GREATER_THAN
        then 2 * 0 + 2 else 2 * 0 + 1) :=
  ⟨by decide, Or.inl (by decide),
    ((sift_step_decision_spec uint_time_comparator_linear.toTotalCmp
      [5, 1, 9] 0 0).1 (by decide)).1 (Or.inl (by decide))⟩

/-! Context-argument plumbing (claim about `binary_heap_set_comparator_arg`
and `binary_heap_set_free_arg`).  heap.h declares both setters and gives the
comparator and destructor types a third (context) parameter, and
event_queue.c calls both setters; but heap.c under src contains no definition of
either setter, stores no context fields, and still invokes the comparator
with two arguments and the destructor with one (it predates the
three-argument API declared in its own header).  The definitions below are
therefore modelled from the spec.  Each operation also returns the list of
context values passed to the comparator, one entry per invocation, so that
"every invocation receives the bound value" is a statement about that
list. -/

/-- Modelled from the spec: the heap stores, besides its elements, the two
opaque context values ("supplied once and passed on every invocation") that
the functions `binary_heap_set_comparator_arg` and `binary_heap_set_free_arg`
of heap.h bind; heap.c defines neither setter nor the fields. -/
structure binary_heap_ctx (α γ : Type) where
  elems : List α
  comparator_arg : γ
  free_arg : γ

/-- Modelled from the spec: `create_empty_heap` leaves the context values
unset until the setters run; the model takes a placeholder initial value. -/
def create_empty_heap_ctx {α γ : Type} (g : γ) : binary_heap_ctx α γ :=
  ⟨[], g, g⟩

/-- Modelled from the spec: bind the opaque context value passed to every
later comparator invocation (declared in heap.h line 39, undefined in
heap.c). -/
def binary_heap_set_comparator_arg {α γ : Type} (heap : binary_heap_ctx α γ)
    (arg : γ) : binary_heap_ctx α γ :=
  { heap with comparator_arg := arg }

/-- Modelled from the spec: bind the opaque context value passed to every
later destructor invocation (declared in heap.h line 40, undefined in
heap.c). -/
def binary_heap_set_free_arg {α γ : Type} (heap : binary_heap_ctx α γ)
    (arg : γ) : binary_heap_ctx α γ :=
  { heap with free_arg := arg }

/-- Modelled from the spec: the sift-up loop with a three-argument
comparator; the second component lists the context value passed at each
comparator invocation, in order. -/
def bubble_up_ctx {α γ : Type} (c : α → α → γ → comparison_t) (arg : γ) :
    Nat → List α → Nat → List α × List γ
  | 0, l, _ => (l, [])
  | _ + 1, l, 0 => (l, [])
  | fuel + 1, l, i + 1 =>
    let parent_index := binary_heap_get_parent_index (i + 1)
    match l[i + 1]?, l[parent_index]? with
    | some e, some p =>
      if c e p arg = LESS_THAN then
        let r := bubble_up_ctx c arg fuel (listSwap l (i + 1) parent_index)
          parent_index
        (r.1, arg :: r.2)
      else (l, [arg])
    | _, _ => (l, [])

/-- Modelled from the spec: insert with the three-argument comparator,
passing the bound `comparator_arg` of the heap on every invocation. -/
def binary_heap_insert_ctx {α γ : Type} (c : α → α → γ → comparison_t)
    (heap : binary_heap_ctx α γ) (elem : α) :
    binary_heap_ctx α γ × List γ :=
  let l := heap.elems ++ [elem]
  let r := bubble_up_ctx c heap.comparator_arg (l.length - 1) l (l.length - 1)
  ({ heap with elems := r.1 }, r.2)

/-- Modelled from the spec: one sift-down decision with the three-argument
comparator, also returning the context value passed at each comparator
invocation of the loop iteration (two child comparisons when both children
are present, plus one child-against-child comparison when both compare
`GREATER_THAN`; one comparison for a single child). -/
def sift_step_ctx {α γ : Type} (c : α → α → γ → comparison_t) (arg : γ)
    (l : List α) (index : Nat) : Option Nat × List γ :=
  let left_index := binary_heap_get_left_child_index index
  let right_index := binary_heap_get_right_child_index index
  let left_present := left_index < l.length
  let right_present := right_index < l.length
  if left_present ∧ right_present then
    match l[index]?, l[left_index]?, l[right_index]? with
    | some e, some le, some re =>
      if c e le arg = GREATER_THAN ∧ c e re arg = GREATER_THAN then
        if c le re arg = LESS_THAN ∨ c le re arg = EQUAL_TO then
          (some left_index, [arg, arg, arg])
        else
          (some right_index, [arg, arg, arg])
      else if c e le arg = GREATER_THAN then
        (some left_index, [arg, arg])
      else if c e re arg = GREATER_THAN then
        (some right_index, [arg, arg])
      else
        (none, [arg, arg])
    | _, _, _ => (none, [])
  else if left_present then
    match l[index]?, l[left_index]? with
    | some e, some le =>
      if c e le arg = GREATER_THAN then (some left_index, [arg])
      else (none, [arg])
    | _, _ => (none, [])
  else if right_present then
    match l[index]?, l[right_index]? with
    | some e, some re =>
      if c e re arg = GREATER_THAN then (some right_index, [arg])
      else (none, [arg])
    | _, _ => (none, [])
  else
    (none, [])

/-- Modelled from the spec: the sift-down loop with the three-argument
comparator, accumulating the context values of all comparator
invocations. -/
def sift_down_ctx {α γ : Type} (c : α → α → γ → comparison_t) (arg : γ) :
    Nat → List α → Nat → List α × List γ
  | 0, l, _ => (l, [])
  | fuel + 1, l, index =>
    if binary_heap_get_left_child_index index < l.length ∨
        binary_heap_get_right_child_index index < l.length then
      let st := sift_step_ctx c arg l index
      match st.1 with
      | some j =>
        let r := sift_down_ctx c arg fuel (listSwap l index j) j
        (r.1, st.2 ++ r.2)
      | none => (l, st.2)
    else (l, [])

/-- Modelled from the spec: pop with the three-argument comparator, passing
the bound `comparator_arg` of the heap on every invocation. -/
def binary_heap_pop_min_ctx {α γ : Type} (c : α → α → γ → comparison_t)
    (heap : binary_heap_ctx α γ) :
    Option α × binary_heap_ctx α γ × List γ :=
  match binary_heap_min heap.elems with
  | none => (none, heap, [])
  | some min_val =>
    let l := binary_heap_replace_root_with_last heap.elems
    let r := sift_down_ctx c heap.comparator_arg l.length l 0
    (some min_val, { heap with elems := r.1 }, r.2)

/-- Modelled from the spec: `free_heap` invokes the destructor once per
stored element, passing the bound `free_arg` of the heap each time; the result
lists the (element, context) argument pairs of those invocations. -/
def free_heap_ctx {α γ : Type} (heap : binary_heap_ctx α γ) :
    List (α × γ) :=
  heap.elems.map (fun e => (e, heap.free_arg))

/-- The queue-side context record standing for the `event_queue` pointer the
queue binds into its heap (event_queue.c lines 113-114); the comparator
reaches the `time_comparator` of the queue through it. -/
structure event_queue_rec (τ : Type) where
  time_comparator : τ → τ → comparison_t

/-- From event_queue.c `event_comparator`, with its context parameter: cast
the context to the owning queue and defer to the `time_comparator` of that queue on the times of the
two events. -/
def event_comparator_ctx {α τ : Type} (lhs rhs : event α τ)
    (queue : event_queue_rec τ) : comparison_t :=
  queue.time_comparator lhs.time rhs.time

/-- From event_queue.c `create_generic_event_queue`, over the modelled
context heap: create the heap, then bind the owning queue record as both
the comparator context and the destructor context (lines 112-114). -/
def create_generic_event_queue_ctx {α τ : Type}
    (time_comparator : τ → τ → comparison_t) :
    binary_heap_ctx (event α τ) (event_queue_rec τ) :=
  binary_heap_set_free_arg
    (binary_heap_set_comparator_arg
      (create_empty_heap_ctx ⟨time_comparator⟩) ⟨time_comparator⟩)
    ⟨time_comparator⟩

theorem sift_step_ctx_log {α γ : Type} {c : α → α → γ → comparison_t}
    {arg : γ} {l : List α} {index : Nat} :
    ∀ g ∈ (sift_step_ctx c arg l index).2, g = arg := by
  intro g hg
  unfold sift_step_ctx at hg
  simp only [binary_heap_get_left_child_index,
    binary_heap_get_right_child_index] at hg
  split at hg <;> (try split at hg) <;> (try split at hg) <;>
    (try split at hg) <;> (try split at hg) <;>
    first
    | (simp at hg; exact hg)
    | simp at hg

theorem bubble_up_ctx_log {α γ : Type} {c : α → α → γ → comparison_t}
    {arg : γ} :
    ∀ (fuel : Nat) (l : List α) (i : Nat),
      ∀ g ∈ (bubble_up_ctx c arg fuel l i).2, g = arg := by
  intro fuel
  induction fuel with
  | zero => intro l i g hg; simp [bubble_up_ctx] at hg
  | succ f ih =>
    intro l i g hg
    cases i with
    | zero => simp [bubble_up_ctx] at hg
    | succ n =>
      simp only [bubble_up_ctx] at hg
      split at hg
      · split at hg
        · simp only [List.mem_cons] at hg
          rcases hg with h | h
          · exact h
          · exact ih _ _ g h
        · simp only [List.mem_singleton] at hg
          exact hg
      · simp at hg

theorem sift_down_ctx_log {α γ : Type} {c : α → α → γ → comparison_t}
    {arg : γ} :
    ∀ (fuel : Nat) (l : List α) (i : Nat),
      ∀ g ∈ (sift_down_ctx c arg fuel l i).2, g = arg := by
  intro fuel
  induction fuel with
  | zero => intro l i g hg; simp [sift_down_ctx] at hg
  | succ f ih =>
    intro l i g hg
    simp only [sift_down_ctx] at hg
    split at hg
    · split at hg
      · simp only [List.mem_append] at hg
        rcases hg with h | h
        · exact sift_step_ctx_log g h
        · exact ih _ _ g h
      · exact sift_step_ctx_log g hg
    · simp at hg

/-- C8: after a context value is bound with `binary_heap_set_comparator_arg`
(resp. `binary_heap_set_free_arg`), every comparator invocation performed by
insert and pop (resp. every destructor invocation performed by `free_heap`)
receives that bound value as its final argument; in particular, on the heap
built by `create_generic_event_queue`, `event_comparator` receives the
owning queue (record) on every pop invocation and the destructor context of
every freed event is the owning queue (record). -/
theorem binary_heap_ctx_plumbing {α γ τ : Type}
    (c : α → α → γ → comparison_t) (heap : binary_heap_ctx α γ) (a : γ)
    (elem : α) (time_comparator : τ → τ → comparison_t)
    (es : List (event α τ)) :
    (∀ g ∈ (binary_heap_insert_ctx c
        (binary_heap_set_comparator_arg heap a) elem).2, g = a) ∧
    (∀ g ∈ (binary_heap_pop_min_ctx c
        (binary_heap_set_comparator_arg heap a)).2.2, g = a) ∧
    (∀ pr ∈ free_heap_ctx (binary_heap_set_free_arg heap a), pr.2 = a) ∧
    (∀ g ∈ (binary_heap_pop_min_ctx event_comparator_ctx
        { create_generic_event_queue_ctx (α := α) time_comparator with
          elems := es }).2.2,
      g = event_queue_rec.mk time_comparator) ∧
    (∀ pr ∈ free_heap_ctx
        { create_generic_event_queue_ctx (α := α) time_comparator with
          elems := es },
      pr.2 = event_queue_rec.mk time_comparator) := by
  refine ⟨?_, ?_, ?_, ?_, ?_⟩
  · intro g hg
    unfold binary_heap_insert_ctx at hg
    exact bubble_up_ctx_log _ _ _ g hg
  · intro g hg
    unfold binary_heap_pop_min_ctx at hg
    cases hm : binary_heap_min
        (binary_heap_set_comparator_arg heap a).elems with
    | none => rw [hm] at hg; simp at hg
    | some m =>
      rw [hm] at hg
      simp only at hg
      exact sift_down_ctx_log _ _ _ g hg
  · intro pr hpr
    unfold free_heap_ctx at hpr
    rw [List.mem_map] at hpr
    obtain ⟨e, _, rfl⟩ := hpr
    rfl
  · intro g hg
    unfold binary_heap_pop_min_ctx at hg
    cases hm : binary_heap_min es with
    | none => rw [show ({ create_generic_event_queue_ctx (α := α)
        time_comparator with elems := es } :
          binary_heap_ctx (event α τ) (event_queue_rec τ)).elems = es
        from rfl, hm] at hg; simp at hg
    | some m =>
      rw [show ({ create_generic_event_queue_ctx (α := α)
        time_comparator with elems := es } :
          binary_heap_ctx (event α τ) (event_queue_rec τ)).elems = es
        from rfl, hm] at hg
      simp only at hg
      exact sift_down_ctx_log _ _ _ g hg
  · intro pr hpr
    unfold free_heap_ctx at hpr
    rw [List.mem_map] at hpr
    obtain ⟨e, _, rfl⟩ := hpr
    rfl

theorem binary_heap_ctx_plumbing_witness :
    ((binary_heap_insert_ctx (fun x y _ => uint_time_comparator x y)
        (binary_heap_set_comparator_arg
          (⟨[1, 2, 3], 0, 0⟩ : binary_heap_ctx Nat Nat) 7) 4).2).getD 0 0 ∈
      (binary_heap_insert_ctx (fun x y _ => uint_time_comparator x y)
        (binary_heap_set_comparator_arg
          (⟨[1, 2, 3], 0, 0⟩ : binary_heap_ctx Nat Nat) 7) 4).2 ∧
    ((binary_heap_insert_ctx (fun x y _ => uint_time_comparator x y)
        (binary_heap_set_comparator_arg
          (⟨[1, 2, 3], 0, 0⟩ : binary_heap_ctx Nat Nat) 7) 4).2).getD 0 0 =
      7 :=
  ⟨by decide,
    (binary_heap_ctx_plumbing (fun x y _ => uint_time_comparator x y)
      (⟨[1, 2, 3], 0, 0⟩ : binary_heap_ctx Nat Nat) 7 4
      uint_time_comparator []).1 _ (by decide)⟩

end CustomSwitchSimulation
